import Mathlib

/-!
Verification of the SPSC ring buffer and double-buffered mailbox of
`src/main.cpp` (repository Bidirectional_SPSC), via a shallow embedding of the
sequential semantics of its four operations `try_push`, `try_pop`,
`send_command` and `peek`.

Modelling conventions:
* `size_t` cursors are `Nat` values taken modulo `W = 2 ^ 64` exactly where the
  C++ arithmetic wraps (the stores `h+1` / `t+1` and the unsigned difference
  `h - t`).
* The payload type `Message` carries `float arrayOfNumbers[8]` and
  `bool keepRunning`.  The primitives never perform arithmetic on the floats —
  they only copy them bit-for-bit — so the array entries are modelled as
  integers (a faithful abstraction of opaque bit patterns).
* C++ default-initialization of `Message buf[8]` / `Message slots[2]` writes
  nothing (the contents are indeterminate), so construction of `Ring` and
  `Mailbox` is parameterized by arbitrary initial slot contents.
* Functions that mutate their argument through a reference become state
  transformers `State → State × Result`; the `bool/out-param` pair of
  `try_pop` becomes `Option Message`.
-/

namespace SPSC

/-- The modulus of `size_t` arithmetic (64-bit platform). -/
def W : Nat := 2 ^ 64

/-- The message payload of `main.cpp`:
`struct Message { float arrayOfNumbers[8]; bool keepRunning; };`.
The float entries are modelled as integers since the two primitives only ever
copy them (see the file header note). -/
structure Message where
  arrayOfNumbers : Fin 8 → Int
  keepRunning : Bool

instance : DecidableEq Message := fun a b =>
  if h1 : a.arrayOfNumbers = b.arrayOfNumbers then
    if h2 : a.keepRunning = b.keepRunning then
      isTrue (by cases a; cases b; simp_all)
    else
      isFalse (by intro h; cases h; exact h2 rfl)
  else
    isFalse (by intro h; cases h; exact h1 rfl)

/-- The value a `Message` would hold after C++ value-initialization
(`Message m{};`): all-zero floats and `keepRunning = false`. -/
def Message.defaultVal : Message := ⟨fun _ => 0, false⟩

/-- `struct Mailbox { Message slots[2]; alignas(64) std::atomic<int> latest_idx{0}; };`
The two array slots are separate fields; `latest_idx` is the C++ `int`. -/
structure Mailbox where
  slot0 : Message
  slot1 : Message
  latest_idx : Int

/-- Construction of a `Mailbox` object (`Mailbox m;`): `latest_idx` is
initialized to `0` by its member initializer, while the two `Message` slots are
default-initialized, i.e. left with indeterminate contents — hence they are
parameters of the model. -/
def Mailbox.construct (g0 g1 : Message) : Mailbox := ⟨g0, g1, 0⟩

/-- Reading `mailbox.slots[i]`.  In the program `i` is always `0` or `1`
(proved below as the reachable-state invariant); other indices are undefined
behaviour in C++ and are mapped to slot 0 here. -/
def readSlot (m : Mailbox) (i : Int) : Message :=
  if i = 1 then m.slot1 else m.slot0

/-- Writing `mailbox.slots[i] = c`.  Same indexing convention as `readSlot`. -/
def writeSlot (m : Mailbox) (i : Int) (c : Message) : Mailbox :=
  if i = 1 then { m with slot1 := c } else { m with slot0 := c }

/-- `void send_command(Mailbox&, const Message&)` of `main.cpp` (lines 70–83):
load `latest_idx` (relaxed), write the other slot (`1 - current`), publish the
written slot's index (release).  Sequentially: a pure state transformer. -/
def send_command (mailbox : Mailbox) (command : Message) : Mailbox :=
  let current_idx := mailbox.latest_idx
  let write_idx := 1 - current_idx
  let mailbox' := writeSlot mailbox write_idx command
  { mailbox' with latest_idx := write_idx }

/-- `Message peek(Mailbox&)` of `main.cpp` (lines 90–99): load `latest_idx`
(acquire) and copy the named slot.  The body performs no store to the mailbox,
so its state effect is the identity; the returned pair records
(state after the call, returned message). -/
def peek (mailbox : Mailbox) : Mailbox × Message :=
  (mailbox, readSlot mailbox mailbox.latest_idx)

/-- The buffer index `h & 7` computed by `try_push` (line 118) and `try_pop`
(line 141) of `main.cpp`, packaged with its bound `h &&& 7 < 8`. -/
def slotOf (h : Nat) : Fin 8 :=
  ⟨h &&& 7, by
    have := Nat.and_pow_two_sub_one_eq_mod h 3
    norm_num at this
    omega⟩

/-- `struct alignas(64) Ring { std::atomic<size_t> head{0}; std::atomic<size_t> tail{0}; Message buf[8]; };`
`head` and `tail` hold `size_t` values (always `< W` in reachable states);
`buf` is the 8-slot circular buffer. -/
structure Ring where
  head : Nat
  tail : Nat
  buf : Fin 8 → Message

/-- Construction of a `Ring` object: `head` and `tail` are zero-initialized by
their member initializers; `Message buf[8]` is default-initialized
(indeterminate contents), hence a parameter of the model. -/
def Ring.init (buf0 : Fin 8 → Message) : Ring := ⟨0, 0, buf0⟩

/-- The unsigned 64-bit difference `a - b` for `size_t` operands `a b < W`. -/
def wsub (a b : Nat) : Nat := (a + W - b) % W

/-- `bool try_push(Ring&, const Message&)` of `main.cpp` (lines 112–121):
if `h - t == 8` (full) return `false` with no state change; otherwise write
`buf[h & 7]` and store `h + 1` into `head` (wrapping `size_t` arithmetic). -/
def try_push (queue : Ring) (message : Message) : Ring × Bool :=
  let h := queue.head
  let t := queue.tail
  if wsub h t = 8 then (queue, false)
  else
    ({ queue with
        buf := Function.update queue.buf (slotOf h) message,
        head := (h + 1) % W }, true)

/-- `bool try_pop(Ring&, Message&)` of `main.cpp` (lines 134–144):
if `t == h` (empty) return `false` without touching the out-parameter
(`none`); otherwise copy `buf[t & 7]` out and store `t + 1` into `tail`. -/
def try_pop (queue : Ring) : Ring × Option Message :=
  let t := queue.tail
  let h := queue.head
  if t = h then (queue, none)
  else ({ queue with tail := (t + 1) % W }, some (queue.buf (slotOf t)))

/-- Push a whole list of messages in order, collecting each call's result. -/
def pushAll : Ring → List Message → Ring × List Bool
  | q, [] => (q, [])
  | q, m :: ms =>
    let r := try_push q m
    let rest := pushAll r.1 ms
    (rest.1, r.2 :: rest.2)

/-- A single-threaded ring operation: one `try_push` or one `try_pop` call. -/
inductive Op where
  | push : Message → Op
  | pop : Op

/-- Run a sequence of ring operations, returning the final ring together with
the list of successfully pushed messages and the list of popped messages, both
in chronological order. -/
def runOps : Ring → List Op → Ring × List Message × List Message
  | q, [] => (q, [], [])
  | q, Op.push m :: ops =>
    let r := try_push q m
    let rec' := runOps r.1 ops
    (rec'.1, if r.2 then m :: rec'.2.1 else rec'.2.1, rec'.2.2)
  | q, Op.pop :: ops =>
    let r := try_pop q
    let rec' := runOps r.1 ops
    match r.2 with
    | none => rec'
    | some m => (rec'.1, rec'.2.1, m :: rec'.2.2)

/-- A single-threaded mailbox operation: one `send_command` or one `peek`. -/
inductive MOp where
  | send : Message → MOp
  | peekCall : MOp

/-- The state effect of one mailbox operation (`peek` returns its state
component unchanged). -/
def mstep (m : Mailbox) : MOp → Mailbox
  | MOp.send c => send_command m c
  | MOp.peekCall => (peek m).1

/-- Run a sequence of mailbox operations. -/
def mrun (m : Mailbox) (ops : List MOp) : Mailbox := ops.foldl mstep m

/-- The coupling invariant between a ring state and the history of the run:
`P` is the list of all successfully pushed messages, `Q` of all popped ones.
`rest` is the queue content still in flight; the cursors are the counts of
successful operations reduced mod `2^64`, and slot `(|Q| + j) mod 8` holds the
`j`-th in-flight message. -/
def Inv (r : Ring) (P Q : List Message) : Prop :=
  ∃ rest, P = Q ++ rest ∧ rest.length ≤ 8 ∧
    r.head = P.length % W ∧ r.tail = Q.length % W ∧
    ∀ j, j < rest.length →
      r.buf (slotOf (Q.length + j)) = rest.getD j Message.defaultVal

/-- A concrete message used as input of the evaluation witnesses. -/
def msgA : Message := ⟨fun _ => 1, true⟩

/-- A second concrete message, different from `msgA`. -/
def msgB : Message := ⟨fun _ => 2, false⟩

/-- A concrete initial buffer content for the evaluation witnesses. -/
def bufZ : Fin 8 → Message := fun _ => Message.defaultVal

/-- A concrete ring state holding one message (neither full nor empty), used
by the frame-property witness. -/
def ringOne : Ring := { head := 1, tail := 0, buf := bufZ }

/-! ### Arithmetic helper lemmas -/

theorem and_seven_eq_mod (h : Nat) : h &&& 7 = h % 8 := by
  have := Nat.and_pow_two_sub_one_eq_mod h 3
  norm_num at this
  exact this

theorem slotOf_val (h : Nat) : (slotOf h).val = h % 8 := and_seven_eq_mod h

theorem slotOf_mod (p : Nat) : slotOf (p % W) = slotOf p := by
  apply Fin.ext
  rw [slotOf_val, slotOf_val]
  unfold W
  omega

theorem wsub_mod (p q : Nat) (h1 : q ≤ p) (h2 : p ≤ q + 8) :
    wsub (p % W) (q % W) = p - q := by
  unfold wsub W
  omega

theorem mod_W_inj (p q : Nat) (h1 : q ≤ p) (h2 : p ≤ q + 8) :
    p % W = q % W ↔ p = q := by
  unfold W
  omega

/-! ### Mailbox helper lemmas -/

theorem send_command_flip (m : Mailbox) (c : Message)
    (h : m.latest_idx = 0 ∨ m.latest_idx = 1) :
    (send_command m c).latest_idx = 1 - m.latest_idx ∧
    readSlot (send_command m c) m.latest_idx = readSlot m m.latest_idx ∧
    readSlot (send_command m c) (1 - m.latest_idx) = c := by
  rcases h with h | h <;>
    simp [send_command, writeSlot, readSlot, h]

theorem mrun_idx (ops : List MOp) (m : Mailbox)
    (h : m.latest_idx = 0 ∨ m.latest_idx = 1) :
    (mrun m ops).latest_idx = 0 ∨ (mrun m ops).latest_idx = 1 := by
  induction ops generalizing m with
  | nil => exact h
  | cons op ops ih =>
    cases op with
    | send c =>
      refine ih _ ?_
      rcases h with h | h <;> simp [mstep, send_command, writeSlot, h]
    | peekCall => exact ih _ (by simpa [mstep, peek] using h)

/-! ### C5 -/

/-- C5: for every mailbox state (with a valid selector, the reachable-state
invariant proved in `mailbox_selector_invariant`) and all messages `A`, `B`,
after `send_command A` then `send_command B` with no intervening `peek`,
`peek` returns exactly `B` — never `A`, never a mix. -/
theorem mailbox_last_send_wins (mb : Mailbox) (A B : Message)
    (h : mb.latest_idx = 0 ∨ mb.latest_idx = 1) :
    (peek (send_command (send_command mb A) B)).2 = B := by
  rcases h with h | h <;>
    simp [peek, send_command, writeSlot, readSlot, h]

/-- Witness for `mailbox_last_send_wins` at a concrete mailbox and two
concrete distinct messages. -/
theorem mailbox_last_send_wins_witness :
    ((Mailbox.construct msgA msgB).latest_idx = 0 ∨
      (Mailbox.construct msgA msgB).latest_idx = 1) ∧
    (peek (send_command (send_command (Mailbox.construct msgA msgB) msgA)
      msgB)).2 = msgB :=
  ⟨Or.inl rfl, mailbox_last_send_wins (Mailbox.construct msgA msgB) msgA msgB
    (Or.inl rfl)⟩

/-! ### C6 -/

/-- C6 counterexample: on a freshly constructed `Mailbox` whose
default-initialized slots happen to hold the (indeterminate) bytes `msgA`,
`peek` before any `send_command` returns those bytes, which differ from the
default `Message` value — so `peek` does *not* return a construction-time
default value. -/
theorem peek_before_send_counterexample :
    (peek (Mailbox.construct msgA msgB)).2 = msgA ∧ msgA ≠ Message.defaultVal := by
  constructor
  · rfl
  · decide

/-- C6 amended: `peek` called before any `send_command` returns exactly the
contents slot 0 held at construction — in C++ those contents are
default-initialized, i.e. indeterminate, so the program must (and `main` does)
issue an initializing `send_command` before the reader first peeks. -/
theorem peek_after_construct (g0 g1 : Message) :
    (peek (Mailbox.construct g0 g1)).2 = g0 := by
  simp [peek, readSlot, Mailbox.construct]

/-! ### C9 -/

/-- C9: in every mailbox state reachable from construction by any sequence of
`send_command` and `peek` calls, the published selector `latest_idx` is 0
or 1; a further `send_command` writes only slot `1 - latest_idx` (the slot
named by the published selector keeps its contents), then publishes the
written slot's index, flipping the selector. -/
theorem mailbox_selector_invariant (g0 g1 : Message) (ops : List MOp)
    (c : Message) :
    ((mrun (Mailbox.construct g0 g1) ops).latest_idx = 0 ∨
      (mrun (Mailbox.construct g0 g1) ops).latest_idx = 1) ∧
    (send_command (mrun (Mailbox.construct g0 g1) ops) c).latest_idx =
      1 - (mrun (Mailbox.construct g0 g1) ops).latest_idx ∧
    readSlot (send_command (mrun (Mailbox.construct g0 g1) ops) c)
        (mrun (Mailbox.construct g0 g1) ops).latest_idx =
      readSlot (mrun (Mailbox.construct g0 g1) ops)
        (mrun (Mailbox.construct g0 g1) ops).latest_idx ∧
    readSlot (send_command (mrun (Mailbox.construct g0 g1) ops) c)
        (1 - (mrun (Mailbox.construct g0 g1) ops).latest_idx) = c := by
  have hidx := mrun_idx ops (Mailbox.construct g0 g1) (Or.inl rfl)
  exact ⟨hidx, send_command_flip _ c hidx⟩

/-! ### C3 -/

/-- C3: on every ring state with `tail == head` (empty), `try_pop` returns
failure, leaves the whole ring unchanged, and writes nothing to the
out-parameter (result `none`). -/
theorem try_pop_empty (q : Ring) (h : q.tail = q.head) :
    try_pop q = (q, none) := by
  simp [try_pop, h]

/-- Witness for `try_pop_empty` at the concrete empty initial ring. -/
theorem try_pop_empty_witness :
    (Ring.init bufZ).tail = (Ring.init bufZ).head ∧
    try_pop (Ring.init bufZ) = (Ring.init bufZ, none) :=
  ⟨rfl, try_pop_empty (Ring.init bufZ) rfl⟩

/-! ### C7 -/

/-- C7: for every cursor value `h` — as an unbounded monotonic count, and also
as the wrapped `size_t` value `h % 2^64` actually stored — the slot index
`h & 7` used by `try_push` and `try_pop` equals `h mod 8`. -/
theorem slot_index_is_mod (h : Nat) :
    (slotOf h).val = h % 8 ∧ (slotOf (h % W)).val = h % 8 := by
  refine ⟨slotOf_val h, ?_⟩
  rw [slotOf_mod, slotOf_val]

/-! ### C1 -/

theorem pushAll_ok (ms : List Message) (q : Ring)
    (hh : q.head + ms.length ≤ 8) (ht : q.tail = 0) :
    (pushAll q ms).2 = List.replicate ms.length true ∧
    (pushAll q ms).1.head = q.head + ms.length ∧
    (pushAll q ms).1.tail = 0 := by
  induction ms generalizing q with
  | nil => simp [pushAll, ht]
  | cons m ms ih =>
    simp only [List.length_cons] at hh
    have hne : ¬ wsub q.head q.tail = 8 := by
      rw [ht]; unfold wsub W; omega
    have hmod : (q.head + 1) % W = q.head + 1 := by
      unfold W; omega
    have hstep : try_push q m =
        ({ q with buf := Function.update q.buf (slotOf q.head) m,
                  head := q.head + 1 }, true) := by
      unfold try_push
      rw [if_neg hne, hmod]
    obtain ⟨h1, h2, h3⟩ := ih
      { q with buf := Function.update q.buf (slotOf q.head) m,
               head := q.head + 1 }
      (by simpa using by omega) ht
    simp only at h2
    simp only [pushAll, hstep, List.length_cons]
    refine ⟨by simp [h1, List.replicate_succ], by rw [h2]; omega, h3⟩

/-- C1: starting from the empty ring of capacity 8, each of the first 8
`try_push` calls returns `true`; the ring is then full (`head - tail == 8`),
and a further `try_push` returns `false` and leaves the entire ring state
unchanged — so every later pop behaves as if the failed push never
happened. -/
theorem ring_full_push_fails (buf0 : Fin 8 → Message) (ms : List Message)
    (m : Message) (hlen : ms.length = 8) :
    (pushAll (Ring.init buf0) ms).2 = List.replicate 8 true ∧
    wsub (pushAll (Ring.init buf0) ms).1.head
      (pushAll (Ring.init buf0) ms).1.tail = 8 ∧
    try_push (pushAll (Ring.init buf0) ms).1 m =
      ((pushAll (Ring.init buf0) ms).1, false) := by
  obtain ⟨h1, h2, h3⟩ := pushAll_ok ms (Ring.init buf0) (by simp [Ring.init, hlen]) rfl
  have hfull : wsub (pushAll (Ring.init buf0) ms).1.head
      (pushAll (Ring.init buf0) ms).1.tail = 8 := by
    rw [h2, h3, hlen]
    unfold Ring.init wsub W
    norm_num
  refine ⟨by rw [h1, hlen], hfull, ?_⟩
  unfold try_push
  rw [if_pos hfull]

/-- Witness for `ring_full_push_fails`: eight concrete pushes into the
concrete initial ring, then one more concrete push. -/
theorem ring_full_push_fails_witness :
    (List.replicate 8 msgA).length = 8 ∧
    ((pushAll (Ring.init bufZ) (List.replicate 8 msgA)).2 =
        List.replicate 8 true ∧
      wsub (pushAll (Ring.init bufZ) (List.replicate 8 msgA)).1.head
        (pushAll (Ring.init bufZ) (List.replicate 8 msgA)).1.tail = 8 ∧
      try_push (pushAll (Ring.init bufZ) (List.replicate 8 msgA)).1 msgB =
        ((pushAll (Ring.init bufZ) (List.replicate 8 msgA)).1, false)) :=
  ⟨by simp, ring_full_push_fails bufZ (List.replicate 8 msgA) msgB (by simp)⟩

/-! ### List helper lemmas -/

theorem getD_append_lt {α : Type} (l l' : List α) (j : Nat) (d : α)
    (h : j < l.length) : (l ++ l').getD j d = l.getD j d := by
  induction l generalizing j with
  | nil => simp at h
  | cons a l ih =>
    cases j with
    | zero => rfl
    | succ j =>
      simp only [List.cons_append, List.getD_cons_succ]
      exact ih j (by simpa using h)

theorem getD_append_len {α : Type} (l l' : List α) (d : α) :
    (l ++ l').getD l.length d = l'.getD 0 d := by
  induction l with
  | nil => rfl
  | cons a l ih => simpa using ih

/-! ### Preservation of the coupling invariant -/

theorem inv_push (q : Ring) (P Q : List Message) (m : Message)
    (h : Inv q P Q) :
    Inv (try_push q m).1 (if (try_push q m).2 then P ++ [m] else P) Q := by
  obtain ⟨rest, hPQ, hlen, hhead, htail, hbuf⟩ := h
  have hplen : P.length = Q.length + rest.length := by rw [hPQ]; simp
  have hw : wsub q.head q.tail = rest.length := by
    rw [hhead, htail, hplen, wsub_mod] <;> omega
  by_cases hfull : rest.length = 8
  · have hstep : try_push q m = (q, false) := by
      unfold try_push
      rw [if_pos (by rw [hw, hfull])]
    rw [hstep]
    exact ⟨rest, hPQ, hlen, hhead, htail, hbuf⟩
  · have h7 : rest.length ≤ 7 := by omega
    have hne : ¬ wsub q.head q.tail = 8 := by rw [hw]; exact hfull
    have hstep : try_push q m =
        ({ q with buf := Function.update q.buf (slotOf q.head) m,
                  head := (q.head + 1) % W }, true) := by
      unfold try_push
      rw [if_neg hne]
    have hs2 : (try_push q m).2 = true := by rw [hstep]
    rw [if_pos hs2, hstep]
    have hq : slotOf q.head = slotOf (Q.length + rest.length) := by
      rw [hhead, slotOf_mod, hplen]
    refine ⟨rest ++ [m], by rw [hPQ, List.append_assoc], by simp; omega,
      ?_, htail, ?_⟩
    · show (q.head + 1) % W = (P ++ [m]).length % W
      rw [hhead]
      simp only [List.length_append, List.length_cons, List.length_nil]
      unfold W
      omega
    · intro j hj
      simp only [List.length_append, List.length_cons, List.length_nil] at hj
      show Function.update q.buf (slotOf q.head) m (slotOf (Q.length + j)) = _
      rcases Nat.lt_or_ge j rest.length with hlt | hge
      · have hneq : slotOf (Q.length + j) ≠ slotOf q.head := by
          rw [hq]
          exact Fin.ne_of_val_ne (by rw [slotOf_val, slotOf_val]; omega)
        rw [Function.update_noteq hneq, getD_append_lt _ _ _ _ hlt]
        exact hbuf j hlt
      · have hj' : j = rest.length := by omega
        subst hj'
        rw [hq, Function.update_same, getD_append_len]
        rfl

theorem inv_pop (q : Ring) (P Q : List Message) (h : Inv q P Q) :
    ((try_pop q).2 = none → (try_pop q).1 = q) ∧
    (∀ m, (try_pop q).2 = some m → Inv (try_pop q).1 P (Q ++ [m])) := by
  obtain ⟨rest, hPQ, hlen, hhead, htail, hbuf⟩ := h
  have hplen : P.length = Q.length + rest.length := by rw [hPQ]; simp
  by_cases hemp : q.tail = q.head
  · have hstep : try_pop q = (q, none) := by
      unfold try_pop
      rw [if_pos hemp]
    rw [hstep]
    exact ⟨fun _ => rfl, fun m hm => by simp at hm⟩
  · have hstep : try_pop q =
        ({ q with tail := (q.tail + 1) % W },
          some (q.buf (slotOf q.tail))) := by
      unfold try_pop
      rw [if_neg hemp]
    have hne : Q.length ≠ P.length := by
      intro hc
      exact hemp (by rw [htail, hhead, hc])
    cases rest with
    | nil => simp at hplen; omega
    | cons r0 rest' =>
      have hout : q.buf (slotOf q.tail) = r0 := by
        have := hbuf 0 (by simp)
        rw [htail, slotOf_mod]
        simpa using this
      rw [hstep]
      refine ⟨fun hc => by simp at hc, fun m hm => ?_⟩
      simp only [Option.some_inj] at hm
      rw [hout] at hm
      subst hm
      refine ⟨rest', by rw [hPQ]; simp, by simp at hlen ⊢; omega, ?_, ?_, ?_⟩
      · exact hhead
      · show (q.tail + 1) % W = (Q ++ [r0]).length % W
        rw [htail]
        simp only [List.length_append, List.length_cons, List.length_nil]
        unfold W
        omega
      · intro j hj
        have harg : (Q ++ [r0]).length + j = Q.length + (j + 1) := by
          simp
          omega
        show q.buf (slotOf ((Q ++ [r0]).length + j)) = _
        rw [harg]
        have := hbuf (j + 1) (by simpa using by omega)
        simpa using this

theorem runOps_inv (ops : List Op) (q : Ring) (P Q : List Message)
    (h : Inv q P Q) :
    Inv (runOps q ops).1 (P ++ (runOps q ops).2.1)
      (Q ++ (runOps q ops).2.2) := by
  induction ops generalizing q P Q with
  | nil => simpa [runOps] using h
  | cons op ops ih =>
    cases op with
    | push m =>
      simp only [runOps]
      have hp := inv_push q P Q m h
      by_cases hs : (try_push q m).2
      · simp only [if_pos hs] at hp ⊢
        have := ih (try_push q m).1 (P ++ [m]) Q hp
        simpa [List.append_assoc] using this
      · simp only [if_neg hs] at hp ⊢
        exact ih (try_push q m).1 P Q hp
    | pop =>
      simp only [runOps]
      obtain ⟨hn, hs⟩ := inv_pop q P Q h
      cases hrp : (try_pop q).2 with
      | none =>
        simp only [hrp]
        rw [hn hrp]
        exact ih q P Q h
      | some m =>
        simp only [hrp]
        have := ih (try_pop q).1 P (Q ++ [m]) (hs m hrp)
        simpa [List.append_assoc] using this

theorem inv_init (buf0 : Fin 8 → Message) : Inv (Ring.init buf0) [] [] :=
  ⟨[], rfl, by simp, by simp [Ring.init], by simp [Ring.init], by simp⟩

/-! ### C2 -/

/-- C2: for every sequence of `try_push` / `try_pop` operations run
sequentially from the empty ring, the popped messages are exactly an initial
segment of the successfully pushed messages, in push order — FIFO, no
reordering, no invention. -/
theorem fifo_order (buf0 : Fin 8 → Message) (ops : List Op) :
    ∃ rest, (runOps (Ring.init buf0) ops).2.1 =
      (runOps (Ring.init buf0) ops).2.2 ++ rest := by
  obtain ⟨rest, hPQ, -, -, -, -⟩ := runOps_inv ops (Ring.init buf0) [] []
    (inv_init buf0)
  exact ⟨rest, by simpa using hPQ⟩

/-! ### C4 -/

/-- C4: in every ring state reachable from the initial state by any sequence
of operations, the unsigned difference `head - tail` lies in `[0, 8]` and
equals the number of successful pushes minus successful pops (which hence
never exceeds the capacity and never goes negative). -/
theorem head_tail_bound (buf0 : Fin 8 → Message) (ops : List Op) :
    (runOps (Ring.init buf0) ops).2.2.length ≤
      (runOps (Ring.init buf0) ops).2.1.length ∧
    (runOps (Ring.init buf0) ops).2.1.length ≤
      (runOps (Ring.init buf0) ops).2.2.length + 8 ∧
    wsub (runOps (Ring.init buf0) ops).1.head
        (runOps (Ring.init buf0) ops).1.tail =
      (runOps (Ring.init buf0) ops).2.1.length -
        (runOps (Ring.init buf0) ops).2.2.length ∧
    wsub (runOps (Ring.init buf0) ops).1.head
      (runOps (Ring.init buf0) ops).1.tail ≤ 8 := by
  obtain ⟨rest, hPQ, hlen, hhead, htail, -⟩ := runOps_inv ops (Ring.init buf0)
    [] [] (inv_init buf0)
  simp only [List.nil_append] at hPQ hhead htail
  have hplen : (runOps (Ring.init buf0) ops).2.1.length =
      (runOps (Ring.init buf0) ops).2.2.length + rest.length := by
    rw [hPQ]; simp
  have hw : wsub (runOps (Ring.init buf0) ops).1.head
      (runOps (Ring.init buf0) ops).1.tail = rest.length := by
    rw [hhead, htail, hplen, wsub_mod] <;> omega
  refine ⟨by omega, by omega, by omega, by omega⟩

/-! ### C10 -/

/-- C10: a successful `try_push` modifies only `head` (incrementing the
`size_t` by exactly 1) and the single buffer slot at index `head & 7`,
leaving `tail` and all other slots unchanged; a successful `try_pop` returns
the slot at `tail & 7` and modifies only `tail` (incrementing it by exactly
1), leaving `head` and every buffer slot unchanged; `peek` leaves the mailbox
entirely unchanged. -/
theorem frame_effects (q : Ring) (m : Message) (mb : Mailbox) :
    ((try_push q m).2 = true →
      (try_push q m).1.head = (q.head + 1) % W ∧
      (try_push q m).1.tail = q.tail ∧
      (try_push q m).1.buf (slotOf q.head) = m ∧
      ∀ i : Fin 8, i ≠ slotOf q.head → (try_push q m).1.buf i = q.buf i) ∧
    (∀ mOut, (try_pop q).2 = some mOut →
      mOut = q.buf (slotOf q.tail) ∧
      (try_pop q).1.tail = (q.tail + 1) % W ∧
      (try_pop q).1.head = q.head ∧
      ∀ i : Fin 8, (try_pop q).1.buf i = q.buf i) ∧
    (peek mb).1 = mb := by
  refine ⟨fun hok => ?_, fun mOut hout => ?_, rfl⟩
  · by_cases hfull : wsub q.head q.tail = 8
    · have : try_push q m = (q, false) := by
        unfold try_push
        rw [if_pos hfull]
      rw [this] at hok
      simp at hok
    · have hstep : try_push q m =
          ({ q with buf := Function.update q.buf (slotOf q.head) m,
                    head := (q.head + 1) % W }, true) := by
        unfold try_push
        rw [if_neg hfull]
      rw [hstep]
      exact ⟨rfl, rfl, Function.update_same _ _ _,
        fun i hi => Function.update_noteq hi m q.buf⟩
  · by_cases hemp : q.tail = q.head
    · have : try_pop q = (q, none) := by
        unfold try_pop
        rw [if_pos hemp]
      rw [this] at hout
      simp at hout
    · have hstep : try_pop q =
          ({ q with tail := (q.tail + 1) % W },
            some (q.buf (slotOf q.tail))) := by
        unfold try_pop
        rw [if_neg hemp]
      rw [hstep] at hout ⊢
      simp only [Option.some_inj] at hout
      exact ⟨hout.symm, rfl, rfl, fun i => rfl⟩

/-- Witness for `frame_effects` at a concrete one-element ring (where a push
and a pop both succeed) and a concrete mailbox. -/
theorem frame_effects_witness :
    (try_push ringOne msgA).2 = true ∧
    (try_pop ringOne).2 = some (ringOne.buf (slotOf ringOne.tail)) ∧
    (try_push ringOne msgA).1.head = (ringOne.head + 1) % W ∧
    (try_pop ringOne).1.tail = (ringOne.tail + 1) % W ∧
    (peek (Mailbox.construct msgA msgB)).1 = Mailbox.construct msgA msgB := by
  have hpush : (try_push ringOne msgA).2 = true := by decide
  have hpop : (try_pop ringOne).2 = some (ringOne.buf (slotOf ringOne.tail)) := by
    decide
  refine ⟨hpush, hpop, ?_, ?_, ?_⟩
  · exact ((frame_effects ringOne msgA (Mailbox.construct msgA msgB)).1 hpush).1
  · exact (((frame_effects ringOne msgA (Mailbox.construct msgA msgB)).2.1
      _ hpop).2).1
  · exact (frame_effects ringOne msgA (Mailbox.construct msgA msgB)).2.2

end SPSC
